import Mathlib

/-!
Verification development for the `digits` countdown-numbers solver.

The definitions below are a shallow embedding of `digits.go`:

* Go's `operation` enum and its checked arithmetic `operation.eval`
  (returning `(int, bool)` in Go, modelled as `Option Int`);
* the `expression` tree (`Op == opNone` constants are the `const`
  constructor, operator nodes carry their precomputed `Val`);
* the checked constructors `makeConstant`, `makeAdd`, `makeSubtract`,
  `makeMultiply`, `makeDivide` (a Go `panic` is modelled as `none`);
* `expression.String` (here `render`), `expression.eval`,
  `expression.canonicalize`;
* the recursive search `solve` together with its dedup pass.

Go's `%` and `/` on `int` truncate toward zero, which is exactly
`Int.tmod` / `Int.tdiv`.  A Go runtime panic (integer divide by zero in
`target % a` / `a % target`, or a constructor consistency panic) is
modelled by propagating `none`.

`solve`'s recursion consumes one digit per level, so its depth is the
length of the digit list; the embedding makes that explicit with a fuel
parameter (`solveFuel`) and defines `solve t d = solveFuel d.length t d`.
The theorem `solveFuel_depth_bound` below proves that any fuel of at
least `d.length` gives the same result, which justifies this modelling
of the unbounded Go recursion.
-/

namespace Digits

/-- The `operation` enum from `digits.go`.  The Go value `opNone` marks a
constant expression and is represented here by `expression.const`. -/
inductive operation where
  | opAdd
  | opSubtract
  | opMultiply
  | opDivide
deriving DecidableEq, Repr

/-- Go `opStrings` / `operation.String`. -/
def operation.render : operation → String
  | .opAdd => "+"
  | .opSubtract => "-"
  | .opMultiply => "*"
  | .opDivide => "/"

/-- Go `operation.eval`: the `(int, bool)` result is modelled as
`Option Int`; `(v, false)` becomes `none`.  Subtraction is only valid for
`a > b`; division requires a nonzero divisor and an exact quotient. -/
def operation.eval : operation → Int → Int → Option Int
  | .opAdd, a, b => some (a + b)
  | .opSubtract, a, b => if a > b then some (a - b) else none
  | .opMultiply, a, b => some (a * b)
  | .opDivide, a, b =>
      if b = 0 then none
      else if Int.tmod a b = 0 then some (Int.tdiv a b) else none

/-- The Go `expression` struct: either a constant (`Op == opNone`) or an
operator node carrying its precomputed value `Val` and two children. -/
inductive expression where
  | const (v : Int)
  | node (v : Int) (op : operation) (a b : expression)
deriving DecidableEq, Repr

/-- The `Val` field of the Go struct. -/
def expression.Val : expression → Int
  | .const v => v
  | .node v _ _ _ => v

/-- Go `makeConstant`. -/
def makeConstant (v : Int) : expression := .const v

/-- Go `makeAdd`; the consistency `panic` is modelled as `none`. -/
def makeAdd (v : Int) (a b : expression) : Option expression :=
  if a.Val + b.Val = v then some (.node v .opAdd a b) else none

/-- Go `makeSubtract`; the consistency `panic` is modelled as `none`. -/
def makeSubtract (v : Int) (a b : expression) : Option expression :=
  if a.Val - b.Val = v then some (.node v .opSubtract a b) else none

/-- Go `makeMultiply`; the consistency `panic` is modelled as `none`. -/
def makeMultiply (v : Int) (a b : expression) : Option expression :=
  if a.Val * b.Val = v then some (.node v .opMultiply a b) else none

/-- Go `makeDivide`; both the zero-denominator `panic` and the
consistency `panic` are modelled as `none`.  Go `/` truncates toward
zero, i.e. `Int.tdiv`. -/
def makeDivide (v : Int) (a b : expression) : Option expression :=
  if b.Val = 0 then none
  else if Int.tdiv a.Val b.Val = v then some (.node v .opDivide a b) else none

/-- Go `expression.String`: constants print their decimal value, operator
nodes print fully parenthesized with spaces around the operator. -/
def expression.render : expression → String
  | .const v => toString v
  | .node _ op a b =>
      "(" ++ a.render ++ " " ++ op.render ++ " " ++ b.render ++ ")"

/-- Go `expression.eval`: evaluate both children, then apply the checked
operator arithmetic.  A `false` ok-flag anywhere yields `none`. -/
def expression.eval : expression → Option Int
  | .const v => some v
  | .node _ op a b =>
      Option.bind a.eval fun x =>
      Option.bind b.eval fun y =>
      op.eval x y

/-- Go `expression.canonicalize`: for an addition or multiplication node,
swap the two children when the second child's stored value is smaller
than the first's.  All other expressions are returned unchanged. -/
def canonicalize : expression → expression
  | .node v op a b =>
      if (op = .opAdd ∨ op = .opMultiply) ∧ b.Val < a.Val
      then .node v op b a
      else .node v op a b
  | e => e

/-- The per-position data of `solve`'s loop over `aIdx`: for each index,
the digit at that index paired with the remaining digits
(`digits[:aIdx] ++ digits[aIdx+1:]`), in index order. -/
def splits : List Int → List (Int × List Int)
  | [] => []
  | a :: rest => (a, rest) :: (splits rest).map fun p => (p.1, a :: p.2)

/-- The Go loops `for _, soln := range solve(...) { solutions =
append(solutions, makeX(...)) }`: combine every recursively found
sub-solution, aborting (propagating a constructor panic) on `none`. -/
def combineAll (mk : expression → Option expression) :
    List expression → Option (List expression)
  | [] => some []
  | s :: rest =>
      Option.bind (mk s) fun e =>
      Option.bind (combineAll mk rest) fun es =>
      some (e :: es)

/-- The body of `solve`'s loop for one digit `a` with remaining digits
`other` (lines 159-202 of `digits.go`): the identity solution, then the
add, two subtract, multiply and two divide branches, concatenated in
program order.  `recur` stands for the recursive `solve` call.  Go
evaluates `target % a` (resp. `a % target`) unguarded, so a zero `a`
(resp. zero `target`) is a runtime panic, modelled as `none`. -/
def branches (recur : Int → List Int → Option (List expression))
    (target a : Int) (other : List Int) : Option (List expression) :=
  let aExp := makeConstant a
  let idSols := if a = target then [aExp] else []
  Option.bind
    (if target > a
     then (recur (target - a) other).bind (combineAll (makeAdd target aExp))
     else some []) fun addSols =>
  Option.bind
    (if a > target
     then (recur (a - target) other).bind (combineAll (makeSubtract target aExp))
     else some []) fun subASols =>
  Option.bind
    ((recur (target + a) other).bind
      (combineAll fun s => makeSubtract target s aExp)) fun subBSols =>
  Option.bind
    (if a = 0 then none
     else if Int.tmod target a = 0
     then (recur (Int.tdiv target a) other).bind (combineAll (makeMultiply target aExp))
     else some []) fun mulSols =>
  Option.bind
    (if target = 0 then none
     else if Int.tmod a target = 0
     then (recur (Int.tdiv a target) other).bind (combineAll (makeDivide target aExp))
     else some []) fun divASols =>
  Option.bind
    ((recur (target * a) other).bind
      (combineAll fun s => makeDivide target s aExp)) fun divBSols =>
  some (idSols ++ addSols ++ subASols ++ subBSols ++ mulSols ++ divASols ++ divBSols)

/-- `solve`'s outer loop over digit positions, concatenating the
solutions contributed by each position in order. -/
def collectAll (recur : Int → List Int → Option (List expression))
    (target : Int) : List (Int × List Int) → Option (List expression)
  | [] => some []
  | p :: rest =>
      Option.bind (branches recur target p.1 p.2) fun s =>
      Option.bind (collectAll recur target rest) fun r =>
      some (s ++ r)

/-- The dedup pass at the end of `solve` (lines 207-217): canonicalize
each solution, keep it only when its rendered string has not been seen
yet.  The Go `seen` map is modelled as the list of keys seen so far. -/
def dedupAux (seen : List String) : List expression → List expression
  | [] => []
  | e :: rest =>
      let s := canonicalize e
      let key := s.render
      if key ∈ seen then dedupAux seen rest
      else s :: dedupAux (key :: seen) rest

/-- The dedup pass started with an empty `seen` map. -/
def dedup (l : List expression) : List expression := dedupAux [] l

/-- Go `solve`, with the recursion depth made explicit as fuel.  Each
recursive call of the Go function receives a digit list shorter by one,
so fuel `d.length` reproduces the Go recursion exactly
(theorem `solveFuel_depth_bound`).  An empty digit list yields no loop
iterations, hence no solutions, for any fuel. -/
def solveFuel : Nat → Int → List Int → Option (List expression)
  | _, _, [] => some []
  | 0, _, _ :: _ => none
  | f + 1, target, a :: rest =>
      Option.map dedup (collectAll (solveFuel f) target (splits (a :: rest)))

/-- The collected solutions of one `solve` call before the dedup pass
(the Go local `solutions` at line 207). -/
def solveRawFuel : Nat → Int → List Int → Option (List expression)
  | _, _, [] => some []
  | 0, _, _ :: _ => none
  | f + 1, target, a :: rest =>
      collectAll (solveFuel f) target (splits (a :: rest))

/-- Go `solve target digits`. -/
def solve (target : Int) (digits : List Int) : Option (List expression) :=
  solveFuel digits.length target digits

/-- The multiset of constant-leaf values of an expression. -/
def leaves : expression → Multiset Int
  | .const v => {v}
  | .node _ _ a b => leaves a + leaves b

/-- The per-node arithmetic validity of §4.1 of the spec, on stored
values: subtraction nodes need a strictly greater left operand, divide
nodes a nonzero divisor dividing the dividend exactly. -/
def exprValid : expression → Bool
  | .const _ => true
  | .node _ op a b =>
      exprValid a && exprValid b &&
      match op with
      | .opSubtract => decide (a.Val > b.Val)
      | .opDivide => decide (b.Val ≠ 0 ∧ Int.tmod a.Val b.Val = 0)
      | _ => true

/-- Every stored value in the tree (leaves included) is strictly
positive. -/
def allPos : expression → Bool
  | .const v => decide (0 < v)
  | .node v _ a b => decide (0 < v) && allPos a && allPos b

/-- Every subtraction node in the tree has a strictly positive stored
value. -/
def subPos : expression → Bool
  | .const _ => true
  | .node v op a b =>
      (match op with
       | .opSubtract => decide (0 < v)
       | _ => true) && subPos a && subPos b

/-- The sub-targets on which `solve` recurses for one digit `a` with
remaining digits `other`, each listed under its branch condition, in
branch order: add, subtract (two ways), multiply, divide (two ways). -/
def branchCalls (target a : Int) (other : List Int) : List (Int × List Int) :=
  (if target > a then [(target - a, other)] else []) ++
  (if a > target then [(a - target, other)] else []) ++
  [(target + a, other)] ++
  (if a ≠ 0 ∧ Int.tmod target a = 0 then [(Int.tdiv target a, other)] else []) ++
  (if target ≠ 0 ∧ Int.tmod a target = 0 then [(Int.tdiv a target, other)] else []) ++
  [(target * a, other)]

/-- All `(target, digits)` argument pairs of recursive `solve` calls
reachable from one call, to the given depth: for every digit position
and every guarded branch, the immediate sub-call plus, transitively, the
calls it makes in turn. -/
def callsFuel : Nat → Int → List Int → List (Int × List Int)
  | 0, _, _ => []
  | f + 1, target, d =>
      (splits d).flatMap fun p =>
        (branchCalls target p.1 p.2).flatMap fun q =>
          q :: callsFuel f q.1 q.2

/-- One iteration of `main`'s shortest-solution loop (lines 257-260):
replace the current best rendered string when it is the empty sentinel
or the new render is strictly shorter. -/
def shortestStep (acc : String) (e : expression) : String :=
  let str := e.render
  if acc = "" ∨ str.length < acc.length then str else acc

/-- The shortest-solution selection of `main` (lines 240-263): an empty
solution list is reported as no solutions (`none`) before any selection
happens; otherwise fold the loop body over the solutions starting from
the empty sentinel. -/
def shortestOfMain (solns : List expression) : Option String :=
  if solns = [] then none
  else some (solns.foldl shortestStep "")

/-! ## Concrete evaluations: divergences between spec and code -/

/-- C1: at target `-1` with digits `[2, 3]` the search returns the
expression `(2 - 3)`, whose evaluation fails (`operation.eval` for
subtraction requires a strictly greater left operand), contradicting the
soundness property `e.evaluate() == t` for every returned expression.
The Go `main` detects this with its own "result is invalid" check. -/
theorem solve_neg_target_eval_fails :
    solve (-1) [2, 3] =
      some [.node (-1) .opSubtract (.const 2) (.const 3)] ∧
    (expression.node (-1) .opSubtract (.const 2) (.const 3)).eval = none := by
  decide

/-- C6: at target `-1` with digits `[3, 4]` the search returns the
expression `(3 - 4)`, which contains a subtraction node whose left
operand value (3) is not strictly greater than its right operand value
(4), contradicting the arithmetic validity rules for returned
expressions. -/
theorem solve_returns_invalid_subtract :
    solve (-1) [3, 4] =
      some [.node (-1) .opSubtract (.const 3) (.const 4)] ∧
    exprValid (.node (-1) .opSubtract (.const 3) (.const 4)) = false := by
  decide

/-- C7: the code performs `a % target` and `target % a` without the
nonzero guards stated in the spec, so the search panics (modelled
`none`) with a zero right operand: directly at target `0`, at digit `0`,
and from the CLI-admissible call `solve (-5) [5, 3]`, whose always-taken
`target + a` branch recurses into target `0`. -/
theorem solve_modulus_zero_panics :
    solve 0 [3] = none ∧ solve 5 [0] = none ∧ solve (-5) [5, 3] = none := by
  decide

/-! ## Canonicalization ordering (C4, C5) -/

/-- C4 counterexample: canonicalizing the addition node `(5 + 3)` — whose
children already stand in descending order of absolute value — swaps
them to `(3 + 5)`, i.e. ascending order of stored value; the resulting
children have `|3| < |5|`, so they are not in descending order of
absolute value as the claim states. -/
theorem canonicalize_desc_abs_counterexample :
    canonicalize (.node 8 .opAdd (.const 5) (.const 3)) =
      .node 8 .opAdd (.const 3) (.const 5) ∧
    ¬((expression.const 5).Val.natAbs ≤ (expression.const 3).Val.natAbs) := by
  decide

/-- C4 amended: for an addition or multiplication node, canonicalization
deterministically reorders the two children into ascending order of
stored (signed) value — the same two children, swapped exactly when the
second child's value is strictly smaller than the first's. -/
theorem canonicalize_orders_ascending (v : Int) (op : operation)
    (a b : expression) (hop : op = .opAdd ∨ op = .opMultiply) :
    ∃ x y, canonicalize (.node v op a b) = .node v op x y ∧
      x.Val ≤ y.Val ∧ ((x = a ∧ y = b) ∨ (x = b ∧ y = a)) := by
  by_cases h : b.Val < a.Val
  · exact ⟨b, a, by simp [canonicalize, hop, h], le_of_lt h, Or.inr ⟨rfl, rfl⟩⟩
  · exact ⟨a, b, by simp [canonicalize, h], le_of_not_lt h, Or.inl ⟨rfl, rfl⟩⟩

/-- C4 amended, witnessed at the addition node `(5 + 3)`. -/
theorem canonicalize_orders_ascending_witness :
    ∃ x y, canonicalize (.node 8 .opAdd (.const 5) (.const 3)) =
        .node 8 .opAdd x y ∧ x.Val ≤ y.Val ∧
      ((x = .const 5 ∧ y = .const 3) ∨ (x = .const 3 ∧ y = .const 5)) :=
  canonicalize_orders_ascending 8 .opAdd (.const 5) (.const 3) (Or.inl rfl)

/-- C5 counterexample: the two addition children `(1 + 3)` and `(2 + 2)`
have equal stored value 4, so canonicalization swaps in neither order
and the two permutations of the same commutative node render to
different strings. -/
theorem canonicalize_swap_counterexample :
    (canonicalize (.node 8 .opAdd (.node 4 .opAdd (.const 1) (.const 3))
        (.node 4 .opAdd (.const 2) (.const 2)))).render ≠
    (canonicalize (.node 8 .opAdd (.node 4 .opAdd (.const 2) (.const 2))
        (.node 4 .opAdd (.const 1) (.const 3)))).render := by
  decide

/-- C5 amended: for an addition or multiplication node whose children
have distinct stored values (or are the same tree), swapping the
children before canonicalization yields an identical rendered string
after canonicalization. -/
theorem canonicalize_swap_invariant (v : Int) (op : operation)
    (a b : expression) (hop : op = .opAdd ∨ op = .opMultiply)
    (hab : a.Val ≠ b.Val ∨ a = b) :
    (canonicalize (.node v op a b)).render =
    (canonicalize (.node v op b a)).render := by
  rcases hab with hne | rfl
  · rcases lt_or_gt_of_ne hne with h | h
    · simp [canonicalize, hop, h, not_lt_of_gt h]
    · simp [canonicalize, hop, h, not_lt_of_gt h]
  · rfl

/-- C5 amended, witnessed at the addition node `(7 + 2)`. -/
theorem canonicalize_swap_invariant_witness :
    (canonicalize (.node 9 .opAdd (.const 7) (.const 2))).render =
    (canonicalize (.node 9 .opAdd (.const 2) (.const 7))).render :=
  canonicalize_swap_invariant 9 .opAdd (.const 7) (.const 2)
    (Or.inl rfl) (Or.inl (by decide))

/-! ## Dedup pass: distinct canonical renders, first occurrence kept -/

/-- Canonicalization only touches the root node and is idempotent: after
one pass the second child's value is never smaller than the first's. -/
theorem canonicalize_idem (e : expression) :
    canonicalize (canonicalize e) = canonicalize e := by
  cases e with
  | const v => rfl
  | node v op a b =>
    by_cases h : (op = .opAdd ∨ op = .opMultiply) ∧ b.Val < a.Val
    · have h2 : ¬ a.Val < b.Val := asymm h.2
      simp [canonicalize, h, h2]
    · simp [canonicalize, h]

/-- Every element of the dedup output is the canonicalization of an
element of the input. -/
theorem mem_dedupAux {y : expression} (seen : List String)
    (l : List expression) (h : y ∈ dedupAux seen l) :
    ∃ x ∈ l, y = canonicalize x := by
  induction l generalizing seen with
  | nil => simp [dedupAux] at h
  | cons e rest ih =>
    simp only [dedupAux] at h
    by_cases hk : (canonicalize e).render ∈ seen
    · rw [if_pos hk] at h
      obtain ⟨x, hx, hy⟩ := ih seen h
      exact ⟨x, List.mem_cons_of_mem _ hx, hy⟩
    · rw [if_neg hk] at h
      rcases List.mem_cons.mp h with hy | hy
      · exact ⟨e, List.mem_cons_self e rest, hy⟩
      · obtain ⟨x, hx, h2⟩ := ih _ hy
        exact ⟨x, List.mem_cons_of_mem _ hx, h2⟩

/-- No element of the dedup output renders to a key already seen. -/
theorem render_dedupAux_not_seen {y : expression} (seen : List String)
    (l : List expression) (h : y ∈ dedupAux seen l) : y.render ∉ seen := by
  induction l generalizing seen with
  | nil => simp [dedupAux] at h
  | cons e rest ih =>
    simp only [dedupAux] at h
    by_cases hk : (canonicalize e).render ∈ seen
    · rw [if_pos hk] at h
      exact ih seen h
    · rw [if_neg hk] at h
      rcases List.mem_cons.mp h with hy | hy
      · rw [hy]
        exact hk
      · intro hmem
        exact ih (_ :: seen) hy (List.mem_cons_of_mem _ hmem)

/-- The dedup output has pairwise distinct rendered strings. -/
theorem dedupAux_pairwise_render (seen : List String)
    (l : List expression) :
    (dedupAux seen l).Pairwise (fun x y => x.render ≠ y.render) := by
  induction l generalizing seen with
  | nil => exact List.Pairwise.nil
  | cons e rest ih =>
    simp only [dedupAux]
    by_cases hk : (canonicalize e).render ∈ seen
    · rw [if_pos hk]
      exact ih seen
    · rw [if_neg hk]
      refine List.Pairwise.cons ?_ (ih _)
      intro y hy hrender
      exact render_dedupAux_not_seen _ rest hy
        (hrender ▸ List.mem_cons_self _ seen)

/-- The dedup output is a subsequence (in order) of the canonicalized
input. -/
theorem dedupAux_sublist (seen : List String) (l : List expression) :
    (dedupAux seen l).Sublist (l.map canonicalize) := by
  induction l generalizing seen with
  | nil => exact List.Sublist.refl []
  | cons e rest ih =>
    simp only [dedupAux, List.map_cons]
    by_cases hk : (canonicalize e).render ∈ seen
    · rw [if_pos hk]
      exact (ih seen).cons _
    · rw [if_neg hk]
      exact (ih _).cons₂ _

/-- Each element of the dedup output is the first element of the
canonicalized input with its rendered string. -/
theorem dedupAux_find_first {y : expression} (seen : List String)
    (l : List expression) (h : y ∈ dedupAux seen l) :
    (l.map canonicalize).find? (fun x => x.render == y.render) = some y := by
  induction l generalizing seen with
  | nil => simp [dedupAux] at h
  | cons e rest ih =>
    simp only [dedupAux] at h
    by_cases hk : (canonicalize e).render ∈ seen
    · rw [if_pos hk] at h
      have hne : (canonicalize e).render ≠ y.render := by
        intro heq
        exact render_dedupAux_not_seen seen rest h (heq ▸ hk)
      rw [List.map_cons, List.find?_cons_of_neg _ (by simpa using hne)]
      exact ih seen h
    · rw [if_neg hk] at h
      rcases List.mem_cons.mp h with hy | hy
      · rw [List.map_cons, hy, List.find?_cons_of_pos _ (by simp)]
      · have hne : (canonicalize e).render ≠ y.render := by
          intro heq
          exact render_dedupAux_not_seen _ rest hy
            (heq ▸ List.mem_cons_self _ seen)
        rw [List.map_cons, List.find?_cons_of_neg _ (by simpa using hne)]
        exact ih _ hy

/-- Every canonical render of the input is represented in the dedup
output, unless it was already seen. -/
theorem dedupAux_covers {x : expression} (seen : List String)
    (l : List expression) (h : x ∈ l) :
    (canonicalize x).render ∈ seen ∨
      ∃ y ∈ dedupAux seen l, y.render = (canonicalize x).render := by
  induction l generalizing seen with
  | nil => simp at h
  | cons e rest ih =>
    simp only [dedupAux]
    by_cases hk : (canonicalize e).render ∈ seen
    · rw [if_pos hk]
      rcases List.mem_cons.mp h with rfl | hx
      · exact Or.inl hk
      · exact ih seen hx
    · rw [if_neg hk]
      rcases List.mem_cons.mp h with rfl | hx
      · exact Or.inr ⟨canonicalize x, List.mem_cons_self _ _, rfl⟩
      · rcases ih ((canonicalize e).render :: seen) hx with hseen | ⟨y, hy, hr⟩
        · rcases List.mem_cons.mp hseen with heq | hseen
          · exact Or.inr ⟨canonicalize e, List.mem_cons_self _ _, heq.symm⟩
          · exact Or.inl hseen
        · exact Or.inr ⟨y, List.mem_cons_of_mem _ hy, hr⟩

/-- C3: the sequence returned by the search has pairwise distinct
rendered strings; it is a subsequence of the canonicalized collected
solutions in discovery order; each kept expression is the first
collected expression with its canonical string; and every collected
canonical string is represented. -/
theorem solve_dedup_first_occurrence (t : Int) (d : List Int)
    (res raw : List expression) (hres : solve t d = some res)
    (hraw : solveRawFuel d.length t d = some raw) :
    res.Pairwise (fun x y => x.render ≠ y.render) ∧
      res.Sublist (raw.map canonicalize) ∧
      (∀ y ∈ res,
        (raw.map canonicalize).find? (fun x => x.render == y.render) = some y) ∧
      (∀ x ∈ raw, ∃ y ∈ res, y.render = (canonicalize x).render) := by
  have hresdedup : res = dedup raw := by
    cases d with
    | nil =>
      simp only [solve, solveFuel, List.length_nil, Option.some.injEq] at hres
      simp only [solveRawFuel, Option.some.injEq] at hraw
      rw [← hres, ← hraw]
      rfl
    | cons a rest =>
      simp only [solveRawFuel, List.length_cons] at hraw
      simp only [solve, solveFuel, List.length_cons, hraw, Option.map_some',
        Option.some.injEq] at hres
      exact hres.symm
  subst hresdedup
  refine ⟨dedupAux_pairwise_render [] raw, dedupAux_sublist [] raw,
    fun y hy => dedupAux_find_first [] raw hy, fun x hx => ?_⟩
  rcases dedupAux_covers [] raw hx with hseen | hfound
  · simp at hseen
  · exact hfound

/-- C3, witnessed at target 4 over digits `[1, 3]`: the two collected
solutions `(1 + 3)` and `(3 + 1)` canonicalize to the same string and
only the first is kept. -/
theorem solve_dedup_first_occurrence_witness :
    ([expression.node 4 .opAdd (.const 1) (.const 3)].Pairwise
        (fun x y => x.render ≠ y.render)) ∧
      ([expression.node 4 .opAdd (.const 1) (.const 3)].Sublist
        ([expression.node 4 .opAdd (.const 1) (.const 3),
          expression.node 4 .opAdd (.const 3) (.const 1)].map canonicalize)) ∧
      (∀ y ∈ [expression.node 4 .opAdd (.const 1) (.const 3)],
        ([expression.node 4 .opAdd (.const 1) (.const 3),
          expression.node 4 .opAdd (.const 3) (.const 1)].map
            canonicalize).find? (fun x => x.render == y.render) = some y) ∧
      (∀ x ∈ [expression.node 4 .opAdd (.const 1) (.const 3),
          expression.node 4 .opAdd (.const 3) (.const 1)],
        ∃ y ∈ [expression.node 4 .opAdd (.const 1) (.const 3)],
          y.render = (canonicalize x).render) :=
  solve_dedup_first_occurrence 4 [1, 3]
    [expression.node 4 .opAdd (.const 1) (.const 3)]
    [expression.node 4 .opAdd (.const 1) (.const 3),
      expression.node 4 .opAdd (.const 3) (.const 1)]
    (by decide) (by decide)

/-! ## Structure of the per-digit loop -/

/-- Removing the chosen digit keeps every other digit: for each entry of
`splits`, putting the chosen digit back yields the original digit
multiset. -/
theorem splits_cons_multiset {p : Int × List Int} :
    ∀ {l : List Int}, p ∈ splits l →
      p.1 ::ₘ (p.2 : Multiset Int) = (l : Multiset Int) := by
  intro l
  induction l generalizing p with
  | nil => intro h; simp [splits] at h
  | cons x rest ih =>
    intro h
    rcases List.mem_cons.mp h with rfl | h
    · rfl
    · obtain ⟨q, hq, rfl⟩ := List.mem_map.mp h
      have := ih hq
      calc q.1 ::ₘ ((x :: q.2 : List Int) : Multiset Int)
          = x ::ₘ q.1 ::ₘ (q.2 : Multiset Int) := by
            rw [← Multiset.cons_coe, Multiset.cons_swap]
        _ = x ::ₘ (rest : Multiset Int) := by rw [this]
        _ = ((x :: rest : List Int) : Multiset Int) := (Multiset.cons_coe x rest).symm

/-- Each entry of `splits` drops exactly one digit. -/
theorem splits_length {p : Int × List Int} :
    ∀ {l : List Int}, p ∈ splits l → p.2.length + 1 = l.length := by
  intro l
  induction l generalizing p with
  | nil => intro h; simp [splits] at h
  | cons x rest ih =>
    intro h
    rcases List.mem_cons.mp h with rfl | h
    · rfl
    · obtain ⟨q, hq, rfl⟩ := List.mem_map.mp h
      simpa [Nat.succ_eq_add_one] using congrArg Nat.succ (ih hq)

/-- Inversion for the checked `makeAdd` constructor. -/
theorem makeAdd_eq_some {v : Int} {a b e : expression}
    (h : makeAdd v a b = some e) : e = .node v .opAdd a b := by
  unfold makeAdd at h
  split at h
  · injection h with h
    exact h.symm
  · exact Option.noConfusion h

/-- Inversion for the checked `makeSubtract` constructor. -/
theorem makeSubtract_eq_some {v : Int} {a b e : expression}
    (h : makeSubtract v a b = some e) : e = .node v .opSubtract a b := by
  unfold makeSubtract at h
  split at h
  · injection h with h
    exact h.symm
  · exact Option.noConfusion h

/-- Inversion for the checked `makeMultiply` constructor. -/
theorem makeMultiply_eq_some {v : Int} {a b e : expression}
    (h : makeMultiply v a b = some e) : e = .node v .opMultiply a b := by
  unfold makeMultiply at h
  split at h
  · injection h with h
    exact h.symm
  · exact Option.noConfusion h

/-- Inversion for the checked `makeDivide` constructor. -/
theorem makeDivide_eq_some {v : Int} {a b e : expression}
    (h : makeDivide v a b = some e) : e = .node v .opDivide a b := by
  unfold makeDivide at h
  split at h
  · exact Option.noConfusion h
  · split at h
    · injection h with h
      exact h.symm
    · exact Option.noConfusion h

/-- Every expression produced by `combineAll` comes from applying the
combiner to a member of the input list. -/
theorem mem_combineAll {mk : expression → Option expression}
    {l : List expression} {es : List expression} {e : expression}
    (h : combineAll mk l = some es) (he : e ∈ es) :
    ∃ s ∈ l, mk s = some e := by
  induction l generalizing es with
  | nil =>
    simp only [combineAll, Option.some.injEq] at h
    subst h
    simp at he
  | cons s rest ih =>
    simp only [combineAll, Option.bind_eq_some, Option.some.injEq] at h
    obtain ⟨e0, hmk, es', hrest, rfl⟩ := h
    rcases List.mem_cons.mp he with rfl | he
    · exact ⟨s, List.mem_cons_self s rest, hmk⟩
    · obtain ⟨s', hs', hmk'⟩ := ih hrest he
      exact ⟨s', List.mem_cons_of_mem _ hs', hmk'⟩

/-- The addition sub-call is listed in `branchCalls`. -/
theorem branchCalls_mem_add {target a : Int} {other : List Int}
    (h : target > a) : (target - a, other) ∈ branchCalls target a other := by
  simp [branchCalls, h]

/-- The first subtraction sub-call is listed in `branchCalls`. -/
theorem branchCalls_mem_subA {target a : Int} {other : List Int}
    (h : a > target) : (a - target, other) ∈ branchCalls target a other := by
  simp [branchCalls, h]

/-- The always-taken subtraction sub-call is listed in `branchCalls`. -/
theorem branchCalls_mem_subB {target a : Int} {other : List Int} :
    (target + a, other) ∈ branchCalls target a other := by
  simp [branchCalls]

/-- The multiplication sub-call is listed in `branchCalls`. -/
theorem branchCalls_mem_mul {target a : Int} {other : List Int}
    (h1 : a ≠ 0) (h2 : Int.tmod target a = 0) :
    (Int.tdiv target a, other) ∈ branchCalls target a other := by
  simp [branchCalls, h1, h2]

/-- The first division sub-call is listed in `branchCalls`. -/
theorem branchCalls_mem_divA {target a : Int} {other : List Int}
    (h1 : target ≠ 0) (h2 : Int.tmod a target = 0) :
    (Int.tdiv a target, other) ∈ branchCalls target a other := by
  simp [branchCalls, h1, h2]

/-- The always-taken division sub-call is listed in `branchCalls`. -/
theorem branchCalls_mem_divB {target a : Int} {other : List Int} :
    (target * a, other) ∈ branchCalls target a other := by
  simp [branchCalls]

/-- Inversion for the per-digit loop body: every expression it collects
is either the identity solution for the chosen digit, or one of the six
combinations of the chosen digit with a sub-solution returned by a
recursive call whose arguments are listed in `branchCalls`. -/
theorem mem_branches {recur : Int → List Int → Option (List expression)}
    {target a : Int} {other : List Int} {res : List expression}
    {e : expression} (h : branches recur target a other = some res)
    (he : e ∈ res) :
    (a = target ∧ e = makeConstant a) ∨
    ∃ t' res' soln, recur t' other = some res' ∧ soln ∈ res' ∧
      (t', other) ∈ branchCalls target a other ∧
      (e = .node target .opAdd (makeConstant a) soln ∨
       e = .node target .opSubtract (makeConstant a) soln ∨
       e = .node target .opSubtract soln (makeConstant a) ∨
       e = .node target .opMultiply (makeConstant a) soln ∨
       e = .node target .opDivide (makeConstant a) soln ∨
       e = .node target .opDivide soln (makeConstant a)) := by
  simp only [branches, Option.bind_eq_some, Option.some.injEq] at h
  obtain ⟨addSols, hadd, subASols, hsubA, subBSols, hsubB, mulSols, hmul,
    divASols, hdivA, divBSols, hdivB, hres⟩ := h
  subst hres
  simp only [List.mem_append] at he
  rcases he with
    ((((((hid | hmemAdd) | hmemSubA) | hmemSubB) | hmemMul) | hmemDivA) | hmemDivB)
  · by_cases hidc : a = target
    · rw [if_pos hidc] at hid
      exact Or.inl ⟨hidc, List.mem_singleton.mp hid⟩
    · rw [if_neg hidc] at hid
      simp at hid
  · by_cases hgt : target > a
    · rw [if_pos hgt] at hadd
      obtain ⟨res', hrec, hcomb⟩ := Option.bind_eq_some.mp hadd
      obtain ⟨soln, hsoln, hmk⟩ := mem_combineAll hcomb hmemAdd
      exact Or.inr ⟨target - a, res', soln, hrec, hsoln,
        branchCalls_mem_add hgt, Or.inl (makeAdd_eq_some hmk)⟩
    · rw [if_neg hgt] at hadd
      injection hadd with hadd
      subst hadd
      simp at hmemAdd
  · by_cases hgt : a > target
    · rw [if_pos hgt] at hsubA
      obtain ⟨res', hrec, hcomb⟩ := Option.bind_eq_some.mp hsubA
      obtain ⟨soln, hsoln, hmk⟩ := mem_combineAll hcomb hmemSubA
      exact Or.inr ⟨a - target, res', soln, hrec, hsoln,
        branchCalls_mem_subA hgt, Or.inr (Or.inl (makeSubtract_eq_some hmk))⟩
    · rw [if_neg hgt] at hsubA
      injection hsubA with hsubA
      subst hsubA
      simp at hmemSubA
  · obtain ⟨res', hrec, hcomb⟩ := hsubB
    obtain ⟨soln, hsoln, hmk⟩ := mem_combineAll hcomb hmemSubB
    exact Or.inr ⟨target + a, res', soln, hrec, hsoln,
      branchCalls_mem_subB, Or.inr (Or.inr (Or.inl (makeSubtract_eq_some hmk)))⟩
  · by_cases ha0 : a = 0
    · rw [if_pos ha0] at hmul
      exact Option.noConfusion hmul
    · rw [if_neg ha0] at hmul
      by_cases hdvd : Int.tmod target a = 0
      · rw [if_pos hdvd] at hmul
        obtain ⟨res', hrec, hcomb⟩ := Option.bind_eq_some.mp hmul
        obtain ⟨soln, hsoln, hmk⟩ := mem_combineAll hcomb hmemMul
        exact Or.inr ⟨Int.tdiv target a, res', soln, hrec, hsoln,
          branchCalls_mem_mul ha0 hdvd,
          Or.inr (Or.inr (Or.inr (Or.inl (makeMultiply_eq_some hmk))))⟩
      · rw [if_neg hdvd] at hmul
        injection hmul with hmul
        subst hmul
        simp at hmemMul
  · by_cases ht0 : target = 0
    · rw [if_pos ht0] at hdivA
      exact Option.noConfusion hdivA
    · rw [if_neg ht0] at hdivA
      by_cases hdvd : Int.tmod a target = 0
      · rw [if_pos hdvd] at hdivA
        obtain ⟨res', hrec, hcomb⟩ := Option.bind_eq_some.mp hdivA
        obtain ⟨soln, hsoln, hmk⟩ := mem_combineAll hcomb hmemDivA
        exact Or.inr ⟨Int.tdiv a target, res', soln, hrec, hsoln,
          branchCalls_mem_divA ht0 hdvd,
          Or.inr (Or.inr (Or.inr (Or.inr (Or.inl (makeDivide_eq_some hmk)))))⟩
      · rw [if_neg hdvd] at hdivA
        injection hdivA with hdivA
        subst hdivA
        simp at hmemDivA
  · obtain ⟨res', hrec, hcomb⟩ := hdivB
    obtain ⟨soln, hsoln, hmk⟩ := mem_combineAll hcomb hmemDivB
    exact Or.inr ⟨target * a, res', soln, hrec, hsoln,
      branchCalls_mem_divB,
      Or.inr (Or.inr (Or.inr (Or.inr (Or.inr (makeDivide_eq_some hmk)))))⟩

/-- Inversion for the outer loop: every collected expression comes from
the loop body at some digit position. -/
theorem mem_collectAll {recur : Int → List Int → Option (List expression)}
    {target : Int} {l : List (Int × List Int)} {sols : List expression}
    {e : expression} (h : collectAll recur target l = some sols)
    (he : e ∈ sols) :
    ∃ p ∈ l, ∃ s, branches recur target p.1 p.2 = some s ∧ e ∈ s := by
  induction l generalizing sols with
  | nil =>
    simp only [collectAll, Option.some.injEq] at h
    subst h
    simp at he
  | cons p rest ih =>
    simp only [collectAll, Option.bind_eq_some, Option.some.injEq] at h
    obtain ⟨s, hs, r, hr, rfl⟩ := h
    rcases List.mem_append.mp he with hmem | hmem
    · exact ⟨p, List.mem_cons_self p rest, s, hs, hmem⟩
    · obtain ⟨q, hq, s', hs', he'⟩ := ih hr hmem
      exact ⟨q, List.mem_cons_of_mem _ hq, s', hs', he'⟩

/-- Canonicalization permutes children, so it preserves the leaf
multiset. -/
theorem canonicalize_leaves (e : expression) :
    leaves (canonicalize e) = leaves e := by
  cases e with
  | const v => rfl
  | node v op a b =>
    by_cases h : (op = .opAdd ∨ op = .opMultiply) ∧ b.Val < a.Val
    · simp [canonicalize, h, leaves, add_comm]
    · simp [canonicalize, h]

/-- Subset-use over the fueled search: every expression returned uses a
sub-multiset of the digit list as its leaves. -/
theorem solveFuel_leaves (f : Nat) :
    ∀ (t : Int) (d : List Int) (res : List expression),
      solveFuel f t d = some res → ∀ e ∈ res, leaves e ≤ (d : Multiset Int) := by
  induction f with
  | zero =>
    intro t d res h e he
    cases d with
    | nil =>
      simp only [solveFuel, Option.some.injEq] at h
      subst h
      simp at he
    | cons a rest => exact Option.noConfusion h
  | succ f ih =>
    intro t d res h e he
    cases d with
    | nil =>
      simp only [solveFuel, Option.some.injEq] at h
      subst h
      simp at he
    | cons a0 rest0 =>
      rw [solveFuel] at h
      obtain ⟨sols, hcoll, hded⟩ := Option.map_eq_some'.mp h
      subst hded
      obtain ⟨x, hx, rfl⟩ := mem_dedupAux [] sols he
      rw [canonicalize_leaves]
      obtain ⟨p, hp, s, hbr, hxs⟩ := mem_collectAll hcoll hx
      have hmul : p.1 ::ₘ (p.2 : Multiset Int) =
          ((a0 :: rest0 : List Int) : Multiset Int) := splits_cons_multiset hp
      rcases mem_branches hbr hxs with ⟨rfl, rfl⟩ | hcase
      · rw [← hmul]
        simp only [makeConstant, leaves]
        exact Multiset.singleton_le.mpr (Multiset.mem_cons_self _ _)
      · obtain ⟨t', res', soln, hrec, hsoln, _, hxeq⟩ := hcase
        have hsub : leaves soln ≤ (p.2 : Multiset Int) := ih t' p.2 res' hrec soln hsoln
        have hkey : ({p.1} : Multiset Int) + leaves soln ≤
            ((a0 :: rest0 : List Int) : Multiset Int) := by
          rw [← hmul, ← Multiset.singleton_add]
          exact add_le_add_left hsub _
        rcases hxeq with rfl | rfl | rfl | rfl | rfl | rfl <;>
          simpa [leaves, makeConstant, add_comm] using hkey

/-- C2: every expression returned by the search uses only digits of the
input, each digit position at most once — its leaf multiset is a
sub-multiset of the digit list. -/
theorem solve_leaves_submultiset (t : Int) (d : List Int)
    (res : List expression) (h : solve t d = some res) :
    ∀ e ∈ res, leaves e ≤ (d : Multiset Int) :=
  solveFuel_leaves d.length t d res h

/-- C2, witnessed at target 5 over digits `[2, 3]`, whose single returned
expression is `(2 + 3)`. -/
theorem solve_leaves_submultiset_witness :
    leaves (.node 5 .opAdd (.const 2) (.const 3)) ≤
      (([2, 3] : List Int) : Multiset Int) :=
  solve_leaves_submultiset 5 [2, 3]
    [.node 5 .opAdd (.const 2) (.const 3)] (by decide)
    (.node 5 .opAdd (.const 2) (.const 3)) (by simp)

/-! ## Termination: recursion depth bounded by the digit count -/

/-- The loop body only consults the recursive solver on the remaining
digits `other`: two solvers agreeing there produce the same result. -/
theorem branches_congr {r1 r2 : Int → List Int → Option (List expression)}
    {target a : Int} {other : List Int}
    (h : ∀ t', r1 t' other = r2 t' other) :
    branches r1 target a other = branches r2 target a other := by
  unfold branches
  simp only [h]

/-- The outer loop only consults the recursive solver on the remaining
digits of its positions. -/
theorem collectAll_congr {r1 r2 : Int → List Int → Option (List expression)}
    {target : Int} {l : List (Int × List Int)}
    (h : ∀ p ∈ l, ∀ t', r1 t' p.2 = r2 t' p.2) :
    collectAll r1 target l = collectAll r2 target l := by
  induction l with
  | nil => rfl
  | cons p rest ih =>
    simp only [collectAll]
    rw [branches_congr (h p (List.mem_cons_self p rest)),
      ih fun q hq => h q (List.mem_cons_of_mem _ hq)]

/-- Fuel of at least the digit-list length is as good as fuel exactly the
digit-list length: the recursion consumes one digit per level. -/
theorem solveFuel_eq_length :
    ∀ (f : Nat) (t : Int) (d : List Int), d.length ≤ f →
      solveFuel f t d = solveFuel d.length t d := by
  intro f
  induction f with
  | zero =>
    intro t d h
    rw [List.eq_nil_of_length_eq_zero (Nat.le_zero.mp h)]
    rfl
  | succ f ih =>
    intro t d h
    cases d with
    | nil => rfl
    | cons a rest =>
      simp only [List.length_cons] at h ⊢
      have hlen : rest.length ≤ f := Nat.lt_succ_iff.mp h
      simp only [solveFuel]
      rw [collectAll_congr]
      intro p hp t'
      have hp2 : p.2.length = rest.length := by
        have := splits_length hp
        simp only [List.length_cons] at this
        omega
      rw [ih t' p.2 (hp2 ▸ hlen), hp2]

/-- C8: the search terminates with recursion depth bounded by the number
of digits — any fuel of at least `d.length` yields exactly `solve t d`,
and every recursive call receives a digit list strictly shorter by one
element. -/
theorem solveFuel_depth_bound (f : Nat) (t : Int) (d : List Int)
    (h : d.length ≤ f) :
    solveFuel f t d = solve t d ∧
      ∀ p ∈ splits d, p.2.length + 1 = d.length :=
  ⟨solveFuel_eq_length f t d h, fun _ hp => splits_length hp⟩

/-- C8, witnessed with fuel 5 at target 7 over digits `[2, 3]`. -/
theorem solveFuel_depth_bound_witness :
    solveFuel 5 7 [2, 3] = solve 7 [2, 3] ∧
      ∀ p ∈ splits [2, 3], p.2.length + 1 = [2, 3].length :=
  solveFuel_depth_bound 5 7 [2, 3] (by decide)

/-! ## Positivity invariant of the recursion -/

/-- Membership in a conditional singleton list. -/
theorem mem_if_nil {α : Type} {c : Prop} [Decidable c] {q x : α} :
    q ∈ (if c then [x] else []) ↔ c ∧ q = x := by
  split_ifs with h <;> simp [h]

/-- `branchCalls` is complete: the loop body consults the recursive
solver only at argument pairs listed in `branchCalls`, so two solvers
agreeing there produce the same result. -/
theorem branchCalls_complete
    {r1 r2 : Int → List Int → Option (List expression)}
    {target a : Int} {other : List Int}
    (h : ∀ q ∈ branchCalls target a other, r1 q.1 q.2 = r2 q.1 q.2) :
    branches r1 target a other = branches r2 target a other := by
  have e1 : (if target > a
      then (r1 (target - a) other).bind (combineAll (makeAdd target (makeConstant a)))
      else some []) =
      (if target > a
      then (r2 (target - a) other).bind (combineAll (makeAdd target (makeConstant a)))
      else some []) := by
    split_ifs with hgt
    · rw [h (target - a, other) (branchCalls_mem_add hgt)]
    · rfl
  have e2 : (if a > target
      then (r1 (a - target) other).bind (combineAll (makeSubtract target (makeConstant a)))
      else some []) =
      (if a > target
      then (r2 (a - target) other).bind (combineAll (makeSubtract target (makeConstant a)))
      else some []) := by
    split_ifs with hgt
    · rw [h (a - target, other) (branchCalls_mem_subA hgt)]
    · rfl
  have e3 : (r1 (target + a) other).bind
        (combineAll fun s => makeSubtract target s (makeConstant a)) =
      (r2 (target + a) other).bind
        (combineAll fun s => makeSubtract target s (makeConstant a)) := by
    rw [h (target + a, other) branchCalls_mem_subB]
  have e4 : (if a = 0 then none
      else if Int.tmod target a = 0
      then (r1 (Int.tdiv target a) other).bind (combineAll (makeMultiply target (makeConstant a)))
      else some []) =
      (if a = 0 then none
      else if Int.tmod target a = 0
      then (r2 (Int.tdiv target a) other).bind (combineAll (makeMultiply target (makeConstant a)))
      else some []) := by
    split_ifs with ha0 htm
    · rfl
    · rw [h (Int.tdiv target a, other) (branchCalls_mem_mul ha0 htm)]
    · rfl
  have e5 : (if target = 0 then none
      else if Int.tmod a target = 0
      then (r1 (Int.tdiv a target) other).bind (combineAll (makeDivide target (makeConstant a)))
      else some []) =
      (if target = 0 then none
      else if Int.tmod a target = 0
      then (r2 (Int.tdiv a target) other).bind (combineAll (makeDivide target (makeConstant a)))
      else some []) := by
    split_ifs with ht0 htm
    · rfl
    · rw [h (Int.tdiv a target, other) (branchCalls_mem_divA ht0 htm)]
    · rfl
  have e6 : (r1 (target * a) other).bind
        (combineAll fun s => makeDivide target s (makeConstant a)) =
      (r2 (target * a) other).bind
        (combineAll fun s => makeDivide target s (makeConstant a)) := by
    rw [h (target * a, other) branchCalls_mem_divB]
  simp only [branches]
  rw [e1, e2, e3, e4, e5, e6]

/-- An exact division of positive integers is positive (Go `/` is
`Int.tdiv`). -/
theorem tdiv_pos_of_tmod_eq_zero {t a : Int} (ht : 0 < t) (ha : 0 < a)
    (h : Int.tmod t a = 0) : 0 < Int.tdiv t a := by
  have hcancel : a * Int.tdiv t a = t := Int.mul_tdiv_cancel_of_tmod_eq_zero h
  by_contra hle
  push_neg at hle
  nlinarith [hcancel]

/-- All sub-targets produced for a positive target and a positive chosen
digit are positive, and every sub-call keeps the same remaining
digits. -/
theorem branchCalls_pos {target a : Int} {other : List Int}
    (ht : 0 < target) (ha : 0 < a) :
    ∀ q ∈ branchCalls target a other, 0 < q.1 ∧ q.2 = other := by
  intro q hq
  simp only [branchCalls, List.mem_append, mem_if_nil, List.mem_singleton] at hq
  rcases hq with ((((⟨hgt, rfl⟩ | ⟨hgt, rfl⟩) | rfl) | ⟨⟨ha0, htm⟩, rfl⟩) |
    ⟨⟨ht0, htm⟩, rfl⟩) | rfl
  · exact ⟨sub_pos.mpr hgt, rfl⟩
  · exact ⟨sub_pos.mpr hgt, rfl⟩
  · exact ⟨add_pos ht ha, rfl⟩
  · exact ⟨tdiv_pos_of_tmod_eq_zero ht ha htm, rfl⟩
  · exact ⟨tdiv_pos_of_tmod_eq_zero ha ht htm, rfl⟩
  · exact ⟨mul_pos ht ha, rfl⟩

/-- A digit chosen by `splits` is one of the digits, and the remaining
digits are among the digits. -/
theorem splits_mem_of_mem {p : Int × List Int} {l : List Int}
    (hp : p ∈ splits l) : p.1 ∈ l ∧ ∀ x ∈ p.2, x ∈ l := by
  have h := splits_cons_multiset hp
  constructor
  · have : p.1 ∈ p.1 ::ₘ (p.2 : Multiset Int) := Multiset.mem_cons_self _ _
    rw [h] at this
    exact Multiset.mem_coe.mp this
  · intro x hx
    have : x ∈ p.1 ::ₘ (p.2 : Multiset Int) :=
      Multiset.mem_cons_of_mem (Multiset.mem_coe.mpr hx)
    rw [h] at this
    exact Multiset.mem_coe.mp this

/-- Recursive-call positivity: starting from a positive target and
positive digits, every transitively reachable recursive call has a
positive target and positive digits. -/
theorem callsFuel_pos (f : Nat) :
    ∀ (t : Int) (d : List Int), 0 < t → (∀ x ∈ d, 0 < x) →
      ∀ p ∈ callsFuel f t d, 0 < p.1 ∧ ∀ x ∈ p.2, 0 < x := by
  induction f with
  | zero =>
    intro t d _ _ p hp
    simp [callsFuel] at hp
  | succ f ih =>
    intro t d ht hd p hp
    simp only [callsFuel, List.mem_flatMap] at hp
    obtain ⟨q0, hq0, q, hq, hpq⟩ := hp
    obtain ⟨hq01, hq02⟩ := splits_mem_of_mem hq0
    have ha : 0 < q0.1 := hd _ hq01
    have hother : ∀ x ∈ q0.2, 0 < x := fun x hx => hd x (hq02 x hx)
    obtain ⟨hqt, hqo⟩ := branchCalls_pos ht ha q hq
    rcases List.mem_cons.mp hpq with rfl | hpq
    · exact ⟨hqt, hqo ▸ hother⟩
    · exact ih q.1 q.2 hqt (hqo ▸ hother) p hpq

/-- Canonicalization permutes children, so it preserves value
positivity. -/
theorem canonicalize_allPos (e : expression) :
    allPos (canonicalize e) = allPos e := by
  cases e with
  | const v => rfl
  | node v op a b =>
    by_cases h : (op = .opAdd ∨ op = .opMultiply) ∧ b.Val < a.Val
    · simp only [canonicalize, if_pos h, allPos]
      rw [Bool.and_assoc, Bool.and_assoc, Bool.and_comm (allPos b)]
    · simp [canonicalize, h]

/-- Starting from a positive target and positive digits, every value
stored anywhere in a returned expression is positive. -/
theorem solveFuel_allPos (f : Nat) :
    ∀ (t : Int) (d : List Int) (res : List expression), 0 < t →
      (∀ x ∈ d, 0 < x) → solveFuel f t d = some res →
      ∀ e ∈ res, allPos e = true := by
  induction f with
  | zero =>
    intro t d res _ _ h e he
    cases d with
    | nil =>
      simp only [solveFuel, Option.some.injEq] at h
      subst h
      simp at he
    | cons a rest => exact Option.noConfusion h
  | succ f ih =>
    intro t d res ht hd h e he
    cases d with
    | nil =>
      simp only [solveFuel, Option.some.injEq] at h
      subst h
      simp at he
    | cons a0 rest0 =>
      rw [solveFuel] at h
      obtain ⟨sols, hcoll, hded⟩ := Option.map_eq_some'.mp h
      subst hded
      obtain ⟨x, hx, rfl⟩ := mem_dedupAux [] sols he
      rw [canonicalize_allPos]
      obtain ⟨p, hp, s, hbr, hxs⟩ := mem_collectAll hcoll hx
      obtain ⟨hp1, hp2⟩ := splits_mem_of_mem hp
      have ha : 0 < p.1 := hd _ hp1
      have hother : ∀ x ∈ p.2, 0 < x := fun y hy => hd y (hp2 y hy)
      rcases mem_branches hbr hxs with ⟨rfl, rfl⟩ | hcase
      · simpa [makeConstant, allPos] using ht
      · obtain ⟨t', res', soln, hrec, hsoln, hbc, hxeq⟩ := hcase
        obtain ⟨ht', _⟩ := branchCalls_pos ht ha _ hbc
        have hsol : allPos soln = true := ih t' p.2 res' ht' hother hrec soln hsoln
        have hconst : allPos (makeConstant p.1) = true := by
          simpa [makeConstant, allPos] using ha
        rcases hxeq with rfl | rfl | rfl | rfl | rfl | rfl <;>
          simp [allPos, ht, hsol, hconst, makeConstant] <;>
          simpa [makeConstant, allPos] using hconst

/-- All-positive values imply positive subtraction-node values. -/
theorem subPos_of_allPos (e : expression) (h : allPos e = true) :
    subPos e = true := by
  induction e with
  | const v => rfl
  | node v op a b iha ihb =>
    simp only [allPos, Bool.and_eq_true, decide_eq_true_eq] at h
    obtain ⟨⟨hv, hA⟩, hB⟩ := h
    simp only [subPos, Bool.and_eq_true]
    refine ⟨⟨?_, iha hA⟩, ihb hB⟩
    cases op <;> simp [hv]

/-- C10: if the initial target and all digits are strictly positive,
every transitively reachable recursive call also has a strictly positive
target and strictly positive digits, and in particular every subtraction
node in any returned expression has a strictly positive value. -/
theorem solve_positive_invariant (f : Nat) (t : Int) (d : List Int)
    (ht : 0 < t) (hd : ∀ x ∈ d, 0 < x) :
    (∀ p ∈ callsFuel f t d, 0 < p.1 ∧ ∀ x ∈ p.2, 0 < x) ∧
      ∀ res, solve t d = some res → ∀ e ∈ res, subPos e = true := by
  refine ⟨callsFuel_pos f t d ht hd, fun res hres e he => ?_⟩
  exact subPos_of_allPos e (solveFuel_allPos d.length t d res ht hd hres e he)

/-- C10, witnessed at target 3 over digits `[1, 2]` with depth 2. -/
theorem solve_positive_invariant_witness :
    (∀ p ∈ callsFuel 2 3 [1, 2], 0 < p.1 ∧ ∀ x ∈ p.2, 0 < x) ∧
      ∀ res, solve 3 [1, 2] = some res → ∀ e ∈ res, subPos e = true :=
  solve_positive_invariant 2 3 [1, 2] (by decide) (by decide)

/-! ## Shortest-solution selection -/

/-- Decimal digit rendering never produces an empty character list
(accumulator version). -/
theorem toDigitsCore_ne_nil (b : Nat) :
    ∀ (fuel n : Nat) (ds : List Char), ds ≠ [] →
      Nat.toDigitsCore b fuel n ds ≠ [] := by
  intro fuel
  induction fuel with
  | zero =>
    intro n ds h
    simpa [Nat.toDigitsCore] using h
  | succ fuel ih =>
    intro n ds h
    simp only [Nat.toDigitsCore]
    by_cases hz : n / b = 0
    · simp [hz]
    · simp only [hz, if_false]
      exact ih _ _ (by simp)

/-- Decimal digit rendering never produces an empty character list. -/
theorem toDigits_ne_nil (n : Nat) : Nat.toDigits 10 n ≠ [] := by
  unfold Nat.toDigits
  simp only [Nat.toDigitsCore]
  by_cases h : n / 10 = 0
  · simp [h]
  · simp only [h, if_false]
    exact toDigitsCore_ne_nil 10 n (n / 10) _ (by simp)

/-- A nonempty character list yields a nonempty string. -/
theorem asString_ne_empty {l : List Char} (h : l ≠ []) : l.asString ≠ "" := by
  intro heq
  apply h
  have h2 := congrArg String.data heq
  simpa [List.asString] using h2

/-- The decimal rendering of a natural number is never empty. -/
theorem nat_repr_ne_empty (n : Nat) : Nat.repr n ≠ "" :=
  asString_ne_empty (toDigits_ne_nil n)

/-- The decimal rendering of an integer is never empty. -/
theorem toString_int_ne_empty (v : Int) : toString v ≠ "" := by
  cases v with
  | ofNat m => exact nat_repr_ne_empty m
  | negSucc m =>
    rw [show toString (Int.negSucc m) = "-" ++ toString (m + 1) from rfl]
    intro h
    have h2 := congrArg String.data h
    simp [String.data_append] at h2

/-- A rendered expression is never the empty string, so `main`'s empty
sentinel is never confused with a real render. -/
theorem render_ne_empty (e : expression) : e.render ≠ "" := by
  cases e with
  | const v => exact toString_int_ne_empty v
  | node v op a b =>
    simp only [expression.render]
    intro h
    have h2 := congrArg String.data h
    simp [String.data_append] at h2

/-- Folding `main`'s shortest-solution step from a nonempty accumulator
either keeps the accumulator (when no render is strictly shorter) or
returns the render of the first list element of strictly minimal
length. -/
theorem foldl_shortestStep :
    ∀ (l : List expression) (acc : String), acc ≠ "" →
      (l.foldl shortestStep acc = acc ∧
        ∀ x ∈ l, acc.length ≤ x.render.length) ∨
      (∃ l1 e l2, l = l1 ++ e :: l2 ∧
        l.foldl shortestStep acc = e.render ∧
        e.render.length < acc.length ∧
        (∀ x ∈ l1, e.render.length < x.render.length) ∧
        (∀ x ∈ l2, e.render.length ≤ x.render.length)) := by
  intro l
  induction l with
  | nil =>
    intro acc hacc
    exact Or.inl ⟨rfl, by simp⟩
  | cons e rest ih =>
    intro acc hacc
    rw [List.foldl_cons]
    by_cases hlt : e.render.length < acc.length
    · have hstep : shortestStep acc e = e.render := by
        simp [shortestStep, hlt]
      rw [hstep]
      rcases ih e.render (render_ne_empty e) with ⟨hfold, hall⟩ |
        ⟨l1, e', l2, heq, hfold, hlt', hl1, hl2⟩
      · exact Or.inr ⟨[], e, rest, rfl, hfold, hlt, by simp, hall⟩
      · refine Or.inr ⟨e :: l1, e', l2, by simp [heq], hfold, hlt'.trans hlt,
          fun x hx => ?_, hl2⟩
        rcases List.mem_cons.mp hx with rfl | hx
        · exact hlt'
        · exact hl1 x hx
    · have hstep : shortestStep acc e = acc := by
        simp [shortestStep, hacc, hlt]
      rw [hstep]
      rcases ih acc hacc with ⟨hfold, hall⟩ |
        ⟨l1, e', l2, heq, hfold, hlt', hl1, hl2⟩
      · refine Or.inl ⟨hfold, fun x hx => ?_⟩
        rcases List.mem_cons.mp hx with rfl | hx
        · exact le_of_not_lt hlt
        · exact hall x hx
      · refine Or.inr ⟨e :: l1, e', l2, by simp [heq], hfold, hlt',
          fun x hx => ?_, hl2⟩
        rcases List.mem_cons.mp hx with rfl | hx
        · exact hlt'.trans_le (le_of_not_lt hlt)
        · exact hl1 x hx

/-- C9: `main`'s selector reports no solutions on an empty sequence, and
on a nonempty sequence returns the rendered text of an expression of
minimal render length, the first such expression in input order (all
earlier expressions render strictly longer, all later ones at least as
long). -/
theorem shortest_spec :
    shortestOfMain ([] : List expression) = none ∧
    ∀ l : List expression, l ≠ [] →
      ∃ l1 e l2, l = l1 ++ e :: l2 ∧
        shortestOfMain l = some e.render ∧
        (∀ x ∈ l1, e.render.length < x.render.length) ∧
        (∀ x ∈ l2, e.render.length ≤ x.render.length) := by
  refine ⟨rfl, fun l hl => ?_⟩
  cases l with
  | nil => exact absurd rfl hl
  | cons e rest =>
    have hout : shortestOfMain (e :: rest) =
        some ((e :: rest).foldl shortestStep "") := by
      simp [shortestOfMain]
    have hfirst : (e :: rest).foldl shortestStep "" =
        rest.foldl shortestStep e.render := by
      rw [List.foldl_cons]
      congr 1
    rcases foldl_shortestStep rest e.render (render_ne_empty e) with
      ⟨hfold, hall⟩ | ⟨l1, e', l2, heq, hfold, hlt', hl1, hl2⟩
    · exact ⟨[], e, rest, rfl, by rw [hout, hfirst, hfold], by simp, hall⟩
    · refine ⟨e :: l1, e', l2, by simp [heq], by rw [hout, hfirst, hfold],
        fun x hx => ?_, hl2⟩
      rcases List.mem_cons.mp hx with rfl | hx
      · exact hlt'
      · exact hl1 x hx

/-- C9, witnessed on the two-element list `[12, 3]`, whose shortest
render is `3`. -/
theorem shortest_spec_witness :
    ∃ l1 e l2,
      ([expression.const 12, expression.const 3] : List expression) =
        l1 ++ e :: l2 ∧
      shortestOfMain [expression.const 12, expression.const 3] =
        some e.render ∧
      (∀ x ∈ l1, e.render.length < x.render.length) ∧
      (∀ x ∈ l2, e.render.length ≤ x.render.length) :=
  shortest_spec.2 [expression.const 12, expression.const 3] (by decide)

end Digits
